import Mathlib

/-!
Verification development for the crab_torrent bencode decoder and torrent
mapper.  The Rust sources (`src/bencode.rs`, `src/torrent.rs`) are embedded
shallowly: byte buffers become `List Nat` (each element one byte), Rust
`Result`/`Option` become `Except`/`Option`, a `BTreeMap<Vec<u8>, Bencode>`
becomes an association list kept sorted by byte-lexicographic key order, and
an out-of-bounds slice (a Rust panic) becomes the explicit `panicked` outcome.
Recursion over the shared buffer is driven by a fuel parameter; the public
`decode` supplies fuel that provably suffices for its input.
-/

/-- Error enumeration of `bencode.rs`: `BencodeError`. -/
inductive BencodeError where
  | invalidInput
  | invalidNumber
  | invalidSequence
  | noEndMarker
  | noStringDelimiter
deriving DecidableEq, Repr

/-- The bencode value tree of `bencode.rs` (`enum Bencode`).  `Dictionary`
holds the `BTreeMap<Vec<u8>, Bencode>` as an association list sorted by
ascending byte-lexicographic key order, the order in which the B-tree map
stores and iterates its entries. -/
inductive Bencode where
  | Integer (n : Int)
  | String (s : List Nat)
  | List (l : List Bencode)
  | Dictionary (d : List (List Nat × Bencode))

/-- Strict byte-lexicographic order on keys, the `Ord` instance of
`Vec<u8>`: the first differing byte decides, a strict prefix is smaller. -/
def keyLt : List Nat → List Nat → Bool
  | [], [] => false
  | [], _ :: _ => true
  | _ :: _, [] => false
  | a :: as, b :: bs => a < b || (a == b && keyLt as bs)

/-- Model of `BTreeMap::insert` on the sorted association list: place the new pair at
its ordered position, replacing the entry whose key is equal. -/
def insertSorted (k : List Nat) (v : Bencode) :
    List (List Nat × Bencode) → List (List Nat × Bencode)
  | [] => [(k, v)]
  | (k0, v0) :: rest =>
    if keyLt k k0 then (k, v) :: (k0, v0) :: rest
    else if k = k0 then (k, v) :: rest
    else (k0, v0) :: insertSorted k v rest

/-- Model of `BTreeMap::get`: look the key up among the entries. -/
def mapGet (d : List (List Nat × Bencode)) (k : List Nat) : Option Bencode :=
  match d with
  | [] => none
  | (k0, v0) :: rest => if k0 = k then some v0 else mapGet rest k

/-- A UTF-8 continuation byte, `0x80..=0xBF`. -/
def isCont (b : Nat) : Bool := 128 ≤ b && b ≤ 191

mutual

/-- Well-formed UTF-8, the acceptance condition of `std::str::from_utf8`
(RFC 3629: no overlong forms, no surrogates, no code points above
`U+10FFFF`).  Dispatch on the lead byte gives the sequence length and the
admissible range of the first continuation byte. -/
def isValidUtf8 : List Nat → Bool
  | [] => true
  | b :: rest =>
    if b ≤ 127 then isValidUtf8 rest
    else if 194 ≤ b && b ≤ 223 then utf8Tail2 rest
    else if b = 224 then utf8Tail3 160 191 rest
    else if 225 ≤ b && b ≤ 236 then utf8Tail3 128 191 rest
    else if b = 237 then utf8Tail3 128 159 rest
    else if 238 ≤ b && b ≤ 239 then utf8Tail3 128 191 rest
    else if b = 240 then utf8Tail4 144 191 rest
    else if 241 ≤ b && b ≤ 243 then utf8Tail4 128 191 rest
    else if b = 244 then utf8Tail4 128 143 rest
    else false

/-- Tail of a two-byte sequence: one continuation byte. -/
def utf8Tail2 : List Nat → Bool
  | b1 :: r => isCont b1 && isValidUtf8 r
  | [] => false

/-- Tail of a three-byte sequence: a first byte in `lo..=hi`, then a
continuation byte. -/
def utf8Tail3 (lo hi : Nat) : List Nat → Bool
  | b1 :: b2 :: r => (lo ≤ b1 && b1 ≤ hi) && isCont b2 && isValidUtf8 r
  | _ => false

/-- Tail of a four-byte sequence: a first byte in `lo..=hi`, then two
continuation bytes. -/
def utf8Tail4 (lo hi : Nat) : List Nat → Bool
  | b1 :: b2 :: b3 :: r =>
    (lo ≤ b1 && b1 ≤ hi) && isCont b2 && isCont b3 && isValidUtf8 r
  | _ => false

end

/-- Model of `Iterator::position`: index of the first occurrence of `target`. -/
def position (target : Nat) : List Nat → Option Nat
  | [] => none
  | c :: rest => if c = target then some 0 else (position target rest).map (· + 1)

/-- Accumulator loop of decimal parsing: consume ASCII digits, fail on any
other byte. -/
def digitsAux : List Nat → Nat → Option Nat
  | [], acc => some acc
  | c :: cs, acc =>
    if 48 ≤ c && c ≤ 57 then digitsAux cs (acc * 10 + (c - 48)) else none

/-- A non-empty run of ASCII digits read as a natural number. -/
def parseNat : List Nat → Option Nat
  | [] => none
  | cs => digitsAux cs 0

/-- Model of `str::parse::<usize>` on a 64-bit target: an optional leading `+` (byte
43), then digits, rejecting values above `usize::MAX`. -/
def parseUsize (cs : List Nat) : Option Nat :=
  match cs with
  | [] => none
  | c :: rest =>
    (parseNat (if c = 43 then rest else c :: rest)).bind fun n =>
      if n ≤ 2 ^ 64 - 1 then some n else none

/-- Model of `str::parse::<i64>`: an optional leading `+` (43) or `-` (45), then
digits, rejecting values outside the 64-bit signed range. -/
def parseI64 (cs : List Nat) : Option Int :=
  match cs with
  | [] => none
  | c :: rest =>
    if c = 43 then
      (parseNat rest).bind fun n =>
        if n ≤ 2 ^ 63 - 1 then some (Int.ofNat n) else none
    else if c = 45 then
      (parseNat rest).bind fun n =>
        if n ≤ 2 ^ 63 then some (-(Int.ofNat n : Int)) else none
    else
      (parseNat (c :: rest)).bind fun n =>
        if n ≤ 2 ^ 63 - 1 then some (Int.ofNat n) else none

/-- Outcome of a decoder call: a value with the unconsumed remainder, a
returned `BencodeError`, a Rust panic (out-of-bounds slice), or exhausted
fuel (an artifact of the embedding, never reached by `decode`). -/
inductive DecodeResult where
  | ok (value : Bencode) (rest : List Nat)
  | err (e : BencodeError)
  | panicked
  | fuelOut

/-- Function `decode_integer` of `bencode.rs`: find the terminating `e` (byte 101),
read the span after the leading byte as UTF-8 text, parse it as `i64`.
Slicing `input[1..0]` (an `e` at index 0) is a Rust panic. -/
def decode_integer (input : List Nat) : DecodeResult :=
  match position 101 input with
  | none => .err .noEndMarker
  | some pos =>
    if pos < 1 then .panicked
    else
      let span := (input.take pos).drop 1
      if !isValidUtf8 span then .err .invalidSequence
      else
        match parseI64 span with
        | none => .err .invalidNumber
        | some n => .ok (.Integer n) (input.drop (pos + 1))

/-- Function `decode_string` of `bencode.rs`: find the `:` delimiter (byte 58), parse
the decimal length prefix, then slice `input[start..end]`.  The source does
not compare `end` with the buffer length, so when the announced length
exceeds the remaining bytes the slice is out of bounds: a Rust panic. -/
def decode_string (input : List Nat) : DecodeResult :=
  match position 58 input with
  | none => .err .noStringDelimiter
  | some pos =>
    let span := input.take pos
    if !isValidUtf8 span then .err .invalidSequence
    else
      match parseUsize span with
      | none => .err .invalidNumber
      | some len =>
        let start := pos + 1
        let stop := pos + 1 + len
        if input.length < stop then .panicked
        else .ok (.String ((input.drop start).take len)) (input.drop stop)

mutual

/-- Function `decode` of `bencode.rs`, with explicit fuel: dispatch on the first
byte (`i` 105, ASCII digit, `l` 108, `d` 100), otherwise `InvalidInput`. -/
def decodeF : Nat → List Nat → DecodeResult
  | 0, _ => .fuelOut
  | _ + 1, [] => .err .invalidInput
  | fuel + 1, c :: t =>
    if c = 105 then decode_integer (c :: t)
    else if 48 ≤ c ∧ c ≤ 57 then decode_string (c :: t)
    else if c = 108 then decodeListItems fuel t []
    else if c = 100 then decodeDictPairs fuel t []
    else .err .invalidInput

/-- The loop of `decode_list`: decode elements until the remainder is empty
or starts with `e`, then return `&rest[1..]` — which panics when the loop
stopped on an empty remainder. -/
def decodeListItems : Nat → List Nat → List Bencode → DecodeResult
  | 0, _, _ => .fuelOut
  | _ + 1, [], _ => .panicked
  | fuel + 1, c :: rs, acc =>
    if c = 101 then .ok (.List acc) rs
    else
      match decodeF fuel (c :: rs) with
      | .ok v rest2 => decodeListItems fuel rest2 (acc ++ [v])
      | r => r

/-- The loop of `decode_dictionary`: decode a key with `decode_string`, a
value with `decode`, insert the pair into the B-tree map (`if let
Bencode::String` — always the case for a `decode_string` success), until the
remainder is empty (then `&remaining[1..]` panics) or starts with `e`. -/
def decodeDictPairs : Nat → List Nat → List (List Nat × Bencode) → DecodeResult
  | 0, _, _ => .fuelOut
  | _ + 1, [], _ => .panicked
  | fuel + 1, c :: rs, acc =>
    if c = 101 then .ok (.Dictionary acc) rs
    else
      match decode_string (c :: rs) with
      | .ok key rest =>
        match decodeF fuel rest with
        | .ok value rest2 =>
          decodeDictPairs fuel rest2
            (match key with
             | .String kv => insertSorted kv value acc
             | _ => acc)
        | r => r
      | r => r

end

/-- Top-level `decode`: the fuel `2 * input.length + 1` suffices for every
input, so `fuelOut` is unreachable from here. -/
def decode (input : List Nat) : DecodeResult :=
  decodeF (2 * input.length + 1) input

/-- ASCII bytes of a string literal (all keys used by the mapper are
ASCII). -/
def strBytes (s : String) : List Nat := s.data.map Char.toNat

/-- Error enumeration of `torrent.rs`: `TorrentError`. -/
inductive TorrentError where
  | InvalidDictionary
  | InvalidString
  | InvalidTorrentFile
  | MissingField (f : String)
deriving DecidableEq, Repr

/-- Struct `TorrentFile` of `torrent.rs`; a Rust `String` is kept as its UTF-8
bytes. -/
structure TorrentFile where
  length : Int
  path : List (List Nat)
deriving DecidableEq, Repr

/-- Struct `TorrentInfo` of `torrent.rs`.  `pieces` is the Rust `String` that
`get_info` builds (hex text, see `toHex2`), kept as its bytes. -/
structure TorrentInfo where
  name : List Nat
  piece_length : Int
  files : List TorrentFile
  pieces : List Nat
deriving DecidableEq, Repr

/-- Model of `chrono::DateTime<Utc>` (an external collaborator), identified by its UTC
epoch-second timestamp, the only component `from_bencode` ever sets. -/
structure DateTimeUtc where
  secs : Int
deriving DecidableEq, Repr

/-- The timestamps `chrono::DateTime::from_timestamp` accepts: those in the
range of `DateTime::<Utc>::MIN_UTC ..= MAX_UTC` (years -262143 to 262142 of
the proleptic Gregorian calendar). -/
def tsInRange (secs : Int) : Bool :=
  decide (-8334601228800 ≤ secs) && decide (secs ≤ 8210266876799)

/-- Model of `chrono::DateTime::from_timestamp(secs, 0)` (an external collaborator):
`Some` exactly on the representable range. -/
def dateTimeFromTimestamp (secs : Int) : Option DateTimeUtc :=
  if tsInRange secs then some ⟨secs⟩ else none

/-- Struct `Torrent` of `torrent.rs`. -/
structure Torrent where
  announce : List Nat
  created_by : List Nat
  creation_date : DateTimeUtc
  info : TorrentInfo
deriving DecidableEq, Repr

/-- Byte buffers, named so that the name stays visible inside the `Bencode`
namespace where `List` and `String` denote constructors. -/
abbrev Bytes : Type := List Nat

/-- A sequence of bencode values. -/
abbrev BValues : Type := List Bencode

/-- The entry list of a decoded dictionary. -/
abbrev BEntries : Type := List (List Nat × Bencode)

/-- Accessor `Bencode::as_integer`. -/
def Bencode.as_integer : Bencode → Option Int
  | .Integer i => some i
  | _ => none

/-- Accessor `Bencode::as_string`: the bytes of a `String` value when they are valid
UTF-8 (`std::str::from_utf8(s).ok()`), otherwise `none`. -/
def Bencode.as_string : Bencode → Option Bytes
  | .String s => if isValidUtf8 s then some s else none
  | _ => none

/-- Accessor `Bencode::as_dict`. -/
def Bencode.as_dict : Bencode → Option BEntries
  | .Dictionary d => some d
  | _ => none

/-- Modelled from the spec: `Bencode::as_list` is called by `torrent.rs` but
its definition is absent from `src/`; per §3 a List value exposes its ordered
sequence of values. -/
def Bencode.as_list : Bencode → Option BValues
  | .List l => some l
  | _ => none

/-- Modelled from the spec: `Bencode::as_bytes` is called by `torrent.rs` but
its definition is absent from `src/`; per §3 a ByteString value exposes its
raw opaque bytes (no UTF-8 requirement). -/
def Bencode.as_bytes : Bencode → Option Bytes
  | .String s => some s
  | _ => none

/-- Helper `get_string` of `torrent.rs`. -/
def get_string (d : List (List Nat × Bencode)) (k : List Nat) : Option (List Nat) :=
  (mapGet d k).bind Bencode.as_string

/-- Helper `get_integer` of `torrent.rs`. -/
def get_integer (d : List (List Nat × Bencode)) (k : List Nat) : Option Int :=
  (mapGet d k).bind Bencode.as_integer

/-- Helper `get_dictionary` of `torrent.rs`. -/
def get_dictionary (d : List (List Nat × Bencode)) (k : List Nat) :
    Option (List (List Nat × Bencode)) :=
  (mapGet d k).bind Bencode.as_dict

/-- Helper `get_list` of `torrent.rs`. -/
def get_list (d : List (List Nat × Bencode)) (k : List Nat) : Option (List Bencode) :=
  (mapGet d k).bind Bencode.as_list

/-- Helper `get_bytes` of `torrent.rs`. -/
def get_bytes (d : List (List Nat × Bencode)) (k : List Nat) : Option (List Nat) :=
  (mapGet d k).bind Bencode.as_bytes

/-- One hex digit, uppercase (`0`..`9`, `A`..`F`), as its ASCII byte. -/
def hexDigit (n : Nat) : Nat := if n < 10 then 48 + n else 55 + n

/-- Rendering of one byte as the two uppercase hex digits that the format
spec 02X of `get_info` emits. -/
def toHex2 (b : Nat) : List Nat := [hexDigit (b / 16), hexDigit (b % 16)]

/-- Body of the closure in `get_files`: one `files` entry must be a
dictionary with an integer `length` and a `path` list whose members are
UTF-8 strings. -/
def getFile (f : Bencode) : Except TorrentError TorrentFile :=
  match f.as_dict with
  | none => .error .InvalidDictionary
  | some d =>
    match get_integer d (strBytes "length") with
    | none => .error (.MissingField "length")
    | some len =>
      match get_list d (strBytes "path") with
      | none => .error (.MissingField "path")
      | some segs =>
        match getPathSegs segs with
        | .error e => .error e
        | .ok path => .ok ⟨len, path⟩
where
  /-- The `path` iterator of `get_files`: each segment through `as_string`,
  collected with the first `InvalidString` aborting. -/
  getPathSegs : List Bencode → Except TorrentError (List (List Nat))
    | [] => .ok []
    | v :: vs =>
      match v.as_string with
      | none => .error .InvalidString
      | some s =>
        match getPathSegs vs with
        | .error e => .error e
        | .ok rest => .ok (s :: rest)

/-- Function `get_files` of `torrent.rs`: map `getFile` over the entries, first error
wins (`collect::<Result<_, _>>`). -/
def getFiles : List Bencode → Except TorrentError (List TorrentFile)
  | [] => .ok []
  | f :: fs =>
    match getFile f with
    | .error e => .error e
    | .ok tf =>
      match getFiles fs with
      | .error e => .error e
      | .ok tfs => .ok (tf :: tfs)

/-- Function `get_info` of `torrent.rs`: `name`, `piece length`, `files`, `pieces` in
that order; `pieces` is re-rendered as uppercase hex text
(`map(|b| format!("{:02X}", b)).collect::<String>()`). -/
def get_info (d : List (List Nat × Bencode)) : Except TorrentError TorrentInfo :=
  match get_string d (strBytes "name") with
  | none => .error (.MissingField "name")
  | some name =>
    match get_integer d (strBytes "piece length") with
    | none => .error (.MissingField "piece length")
    | some pl =>
      match get_list d (strBytes "files") with
      | none => .error (.MissingField "files")
      | some fl =>
        match getFiles fl with
        | .error e => .error e
        | .ok files =>
          match get_bytes d (strBytes "pieces") with
          | none => .error (.MissingField "pieces")
          | some bs => .ok ⟨name, pl, files, bs.flatMap toHex2⟩

/-- Function `Torrent::from_bencode` of `torrent.rs`: root must be a dictionary, then
`announce`, `created by`, `creation date` (epoch through
`DateTime::from_timestamp`), `info`, in that order. -/
def fromBencode (b : Bencode) : Except TorrentError Torrent :=
  match b.as_dict with
  | none => .error .InvalidTorrentFile
  | some root =>
    match get_string root (strBytes "announce") with
    | none => .error (.MissingField "announce")
    | some announce =>
      match get_string root (strBytes "created by") with
      | none => .error (.MissingField "created by")
      | some created_by =>
        match (get_integer root (strBytes "creation date")).bind dateTimeFromTimestamp with
        | none => .error (.MissingField "creation date")
        | some creation_date =>
          match get_dictionary root (strBytes "info") with
          | none => .error (.MissingField "info")
          | some infoDict =>
            match get_info infoDict with
            | .error e => .error e
            | .ok info => .ok ⟨announce, created_by, creation_date, info⟩

/-- Digits of a positive number accumulated from the low end
(`usize::to_string` / the digit loop of integer formatting). -/
def natToDigitsAux (n : Nat) (acc : List Nat) : List Nat :=
  if h : n = 0 then acc
  else natToDigitsAux (n / 10) ((48 + n % 10) :: acc)
termination_by n
decreasing_by exact Nat.div_lt_self (Nat.pos_of_ne_zero h) (by decide)

/-- Decimal ASCII rendering of a natural number (`to_string`). -/
def natToDigits (n : Nat) : List Nat :=
  if n = 0 then [48] else natToDigitsAux n []

/-- Decimal ASCII rendering of an `i64` (`to_string`): minus sign for
negative values. -/
def intToDigits (i : Int) : List Nat :=
  if i < 0 then 45 :: natToDigits i.natAbs else natToDigits i.natAbs

mutual

/-- Modelled from the spec: the repository ships no encoder under `src/`;
§4.2 specifies the canonical encoder as the exact grammar inverse
(`i<digits>e`, `<len>:<bytes>`, `l...e`, `d...e`) with dictionary entries
emitted in ascending byte-lexicographic key order — which is the stored
order of the sorted entry list. -/
def encode : Bencode → List Nat
  | .Integer n => 105 :: (intToDigits n ++ [101])
  | .String s => natToDigits s.length ++ (58 :: s)
  | .List l => 108 :: (encodeItems l ++ [101])
  | .Dictionary d => 100 :: (encodePairs d ++ [101])

/-- Modelled from the spec: concatenated encodings of the values of a list
(§4.2). -/
def encodeItems : List Bencode → List Nat
  | [] => []
  | v :: vs => encode v ++ encodeItems vs

/-- Modelled from the spec: concatenated `<bytestring><value>` encodings of
the entries of a dictionary in stored (ascending) order (§4.2). -/
def encodePairs : List (List Nat × Bencode) → List Nat
  | [] => []
  | (k, v) :: ps => (natToDigits k.length ++ (58 :: k)) ++ (encode v ++ encodePairs ps)

end

mutual

/-- A value constructible by the bencode grammar as the decoder reads it:
integers fit in `i64`, byte strings are genuine bytes with a length a
`usize` can express, and dictionary keys are strictly ascending (unique)
in byte-lexicographic order, as a decoded `BTreeMap` stores them. -/
def Grammatical : Bencode → Bool
  | .Integer n => decide (-(2 ^ 63 : Int) ≤ n) && decide (n ≤ 2 ^ 63 - 1)
  | .String s => decide (s.length ≤ 2 ^ 64 - 1) && s.all (fun b => b ≤ 255)
  | .List l => GrammaticalItems l
  | .Dictionary d => GrammaticalPairs d

/-- Every member of a list is grammatical. -/
def GrammaticalItems : List Bencode → Bool
  | [] => true
  | v :: vs => Grammatical v && GrammaticalItems vs

/-- Dictionary entries: key bytes and length in range, keys strictly below
every later key, values grammatical. -/
def GrammaticalPairs : List (List Nat × Bencode) → Bool
  | [] => true
  | (k, v) :: rest =>
    decide (k.length ≤ 2 ^ 64 - 1) && k.all (fun b => b ≤ 255) &&
      rest.all (fun q => keyLt k q.1) && Grammatical v && GrammaticalPairs rest

end

/-- The sequence of key/value pairs a dictionary body parses into, in input
order: either the terminating `e` comes first, or a `decode_string` key and
a decoded value are consumed and parsing continues on the remainder. -/
inductive ParsesPairs : List Nat → List (List Nat × Bencode) → List Nat → Prop where
  | nil (rest : List Nat) : ParsesPairs (101 :: rest) [] rest
  | cons {rem r1 r2 rest : List Nat} {k : List Nat} {v : Bencode}
      {ps : List (List Nat × Bencode)}
      (hne : rem.head? ≠ some 101)
      (hkey : decode_string rem = .ok (.String k) r1)
      (hval : ∃ fuel, decodeF fuel r1 = .ok v r2)
      (hrest : ParsesPairs r2 ps rest) :
      ParsesPairs rem ((k, v) :: ps) rest

/-- The root dictionary binds `k` to a text (UTF-8) string. -/
def hasTextField (d : List (List Nat × Bencode)) (k : List Nat) : Bool :=
  match mapGet d k with
  | some (.String s) => isValidUtf8 s
  | _ => false

/-- The dictionary binds `k` to an integer. -/
def hasIntField (d : List (List Nat × Bencode)) (k : List Nat) : Bool :=
  match mapGet d k with
  | some (.Integer _) => true
  | _ => false

/-- The dictionary binds `creation date` to an integer that chrono can turn
into a datetime. -/
def hasTimestampField (d : List (List Nat × Bencode)) : Bool :=
  match mapGet d (strBytes "creation date") with
  | some (.Integer n) => tsInRange n
  | _ => false

/-- The dictionary binds `k` to a dictionary. -/
def hasDictField (d : List (List Nat × Bencode)) (k : List Nat) : Bool :=
  match mapGet d k with
  | some (.Dictionary _) => true
  | _ => false

/-- The dictionary binds `k` to a list. -/
def hasListField (d : List (List Nat × Bencode)) (k : List Nat) : Bool :=
  match mapGet d k with
  | some (.List _) => true
  | _ => false

/-- The dictionary binds `k` to a byte string (no UTF-8 requirement). -/
def hasBytesField (d : List (List Nat × Bencode)) (k : List Nat) : Bool :=
  match mapGet d k with
  | some (.String _) => true
  | _ => false

/-- The dictionary binds `files` to a list that `get_files` maps without
error. -/
def hasMappableFiles (d : List (List Nat × Bencode)) : Bool :=
  match mapGet d (strBytes "files") with
  | some (.List fs) =>
    match getFiles fs with
    | .ok _ => true
    | .error _ => false
  | _ => false

/-- Entries strictly ascending in key order — the invariant of a `BTreeMap`
entry list. -/
def EntriesSorted (d : List (List Nat × Bencode)) : Prop :=
  List.Pairwise (fun p q : List Nat × Bencode => keyLt p.1 q.1 = true) d

/-- One `BTreeMap::insert` step, in `foldl` orientation. -/
def insStep (m : List (List Nat × Bencode)) (p : List Nat × Bencode) :
    List (List Nat × Bencode) :=
  insertSorted p.1 p.2 m

/-- The value of the last occurrence of key `k` in a pair sequence. -/
def lastBound (ps : List (List Nat × Bencode)) (k : List Nat) : Option Bencode :=
  (ps.reverse.find? (fun p => p.1 == k)).map Prod.snd

theorem keyLt_irrefl (a : List Nat) : keyLt a a = false := by
  induction a with
  | nil => rfl
  | cons x xs ih => simp [keyLt, ih]

theorem keyLt_trans (a : List Nat) :
    ∀ b c, keyLt a b = true → keyLt b c = true → keyLt a c = true := by
  induction a with
  | nil =>
    intro b c h1 h2
    cases b with
    | nil => simp [keyLt] at h1
    | cons y ys =>
      cases c with
      | nil => simp [keyLt] at h2
      | cons z zs => simp [keyLt]
  | cons x xs ih =>
    intro b c h1 h2
    cases b with
    | nil => simp [keyLt] at h1
    | cons y ys =>
      cases c with
      | nil => simp [keyLt] at h2
      | cons z zs =>
        simp only [keyLt, Bool.or_eq_true, Bool.and_eq_true, decide_eq_true_eq,
          beq_iff_eq] at h1 h2 ⊢
        rcases h1 with h1 | ⟨rfl, h1⟩
        · rcases h2 with h2 | ⟨rfl, h2⟩
          · exact Or.inl (Nat.lt_trans h1 h2)
          · exact Or.inl h1
        · rcases h2 with h2 | ⟨rfl, h2⟩
          · exact Or.inl h2
          · exact Or.inr ⟨rfl, ih ys zs h1 h2⟩

theorem keyLt_conn (a : List Nat) :
    ∀ b, keyLt a b = false → keyLt b a = false → a = b := by
  induction a with
  | nil =>
    intro b h1 _
    cases b with
    | nil => rfl
    | cons y ys => simp [keyLt] at h1
  | cons x xs ih =>
    intro b h1 h2
    cases b with
    | nil => simp [keyLt] at h2
    | cons y ys =>
      simp only [keyLt, Bool.or_eq_false_iff, Bool.and_eq_false_iff,
        decide_eq_false_iff_not, beq_eq_false_iff_ne, ne_eq] at h1 h2
      obtain ⟨hxy, hxs⟩ := h1
      obtain ⟨hyx, hys⟩ := h2
      have hxy' : x = y := Nat.le_antisymm (Nat.not_lt.mp hyx) (Nat.not_lt.mp hxy)
      subst hxy'
      rcases hxs with h | h
      · exact absurd rfl h
      · rcases hys with h' | h'
        · exact absurd rfl h'
        · rw [ih ys h h']

theorem keyLt_asymm {a b : List Nat} (h : keyLt a b = true) : keyLt b a = false := by
  cases hc : keyLt b a
  · rfl
  · have := keyLt_trans a b a h hc
    rw [keyLt_irrefl] at this
    exact Bool.noConfusion this

theorem keyLt_ne {a b : List Nat} (h : keyLt a b = true) : a ≠ b := by
  intro hab
  subst hab
  rw [keyLt_irrefl] at h
  exact Bool.noConfusion h

theorem mem_insertSorted {k : List Nat} {v : Bencode} :
    ∀ {m p}, p ∈ insertSorted k v m → p = (k, v) ∨ p ∈ m := by
  intro m
  induction m with
  | nil =>
    intro p hp
    simp only [insertSorted, List.mem_singleton] at hp
    exact Or.inl hp
  | cons q rest ih =>
    intro p hp
    obtain ⟨k0, v0⟩ := q
    simp only [insertSorted] at hp
    split at hp
    · rcases List.mem_cons.mp hp with h | h
      · exact Or.inl h
      · exact Or.inr h
    · split at hp
      · rcases List.mem_cons.mp hp with h | h
        · exact Or.inl h
        · exact Or.inr (List.mem_cons_of_mem _ h)
      · rcases List.mem_cons.mp hp with h | h
        · exact Or.inr (List.mem_cons.mpr (Or.inl h))
        · rcases ih h with h' | h'
          · exact Or.inl h'
          · exact Or.inr (List.mem_cons_of_mem _ h')

theorem pairwise_insertSorted {k : List Nat} {v : Bencode} :
    ∀ {m}, EntriesSorted m → EntriesSorted (insertSorted k v m) := by
  intro m
  induction m with
  | nil =>
    intro _
    simp [insertSorted, EntriesSorted]
  | cons q rest ih =>
    intro hm
    obtain ⟨k0, v0⟩ := q
    have h0 := (List.pairwise_cons.mp hm).1
    have hrest := (List.pairwise_cons.mp hm).2
    by_cases h1 : keyLt k k0 = true
    · simp only [insertSorted, h1, if_true]
      refine List.pairwise_cons.mpr ⟨?_, hm⟩
      intro q hq
      rcases List.mem_cons.mp hq with rfl | hq
      · exact h1
      · exact keyLt_trans _ _ _ h1 (h0 q hq)
    · by_cases h2 : k = k0
      · subst h2
        simp only [insertSorted, h1, if_false, if_pos rfl]
        exact List.pairwise_cons.mpr ⟨h0, hrest⟩
      · simp only [insertSorted, h1, if_false, if_neg h2]
        refine List.pairwise_cons.mpr ⟨?_, ih hrest⟩
        intro q hq
        rcases mem_insertSorted hq with rfl | hq
        · cases hlt : keyLt k0 k
          · exact absurd (keyLt_conn k k0 (by simpa using h1) hlt) h2
          · rfl
        · exact h0 q hq

theorem mapGet_insertSorted (k : List Nat) (v : Bencode) :
    ∀ m k', mapGet (insertSorted k v m) k' = if k = k' then some v else mapGet m k' := by
  intro m
  induction m with
  | nil =>
    intro k'
    simp [insertSorted, mapGet]
  | cons q rest ih =>
    intro k'
    obtain ⟨k0, v0⟩ := q
    simp only [insertSorted]
    split
    · simp [mapGet]
    · split
      · rename_i h2
        subst h2
        by_cases h3 : k = k'
        · simp [mapGet, h3]
        · simp [mapGet, h3]
      · rename_i h1 h2
        by_cases h3 : k0 = k'
        · subst h3
          simp [mapGet, h2]
        · simp [mapGet, h3, ih]

theorem find?_or_append {α : Type} (p : α → Bool) :
    ∀ (l1 l2 : List α), (l1 ++ l2).find? p = (l1.find? p).or (l2.find? p) := by
  intro l1 l2
  induction l1 with
  | nil => simp [Option.or]
  | cons a l ih =>
    by_cases h : p a = true
    · simp [List.find?, h, Option.or]
    · simp only [List.cons_append, List.find?, h]
      exact ih

theorem mapGet_foldl_insert :
    ∀ (ps m : List (List Nat × Bencode)) (k : List Nat),
      mapGet (ps.foldl insStep m) k = (lastBound ps k).or (mapGet m k) := by
  intro ps
  induction ps with
  | nil =>
    intro m k
    simp [lastBound, Option.or]
  | cons q ps ih =>
    intro m k
    obtain ⟨k0, v0⟩ := q
    rw [List.foldl_cons, ih]
    have hone : List.find? (fun p : List Nat × Bencode => p.1 == k) [(k0, v0)] =
        if k0 = k then some (k0, v0) else none := by
      by_cases h : k0 = k
      · subst h
        simp [List.find?]
      · have hb : (k0 == k) = false := beq_eq_false_iff_ne.mpr h
        simp [List.find?, hb, h]
    have hsplit : lastBound ((k0, v0) :: ps) k =
        (lastBound ps k).or (if k0 = k then some v0 else none) := by
      simp only [lastBound, List.reverse_cons, find?_or_append, hone]
      cases hf : ps.reverse.find? (fun p : List Nat × Bencode => p.1 == k) with
      | none =>
        by_cases h : k0 = k
        · simp [Option.or, h]
        · simp [Option.or, h]
      | some q' =>
        simp [Option.or]
    rw [hsplit]
    have hins : mapGet (insStep m (k0, v0)) k = if k0 = k then some v0 else mapGet m k :=
      mapGet_insertSorted k0 v0 m k
    rw [hins]
    cases lastBound ps k with
    | none =>
      by_cases h : k0 = k
      · simp [Option.or, h]
      · simp [Option.or, h]
    | some w => simp [Option.or]

theorem pairwise_foldl_insert :
    ∀ (ps m : List (List Nat × Bencode)), EntriesSorted m →
      EntriesSorted (ps.foldl insStep m) := by
  intro ps
  induction ps with
  | nil => intro m hm; exact hm
  | cons q ps ih =>
    intro m hm
    exact ih _ (pairwise_insertSorted hm)

theorem nodup_keys_of_sorted {d : List (List Nat × Bencode)} (h : EntriesSorted d) :
    (d.map Prod.fst).Nodup := by
  have h' : List.Pairwise (fun p q : List Nat × Bencode => p.1 ≠ q.1) d :=
    h.imp (fun hpq => keyLt_ne hpq)
  exact List.pairwise_map.mpr h'

theorem insertSorted_of_gt {k : List Nat} {v : Bencode} :
    ∀ {m}, (∀ q ∈ m, keyLt q.1 k = true) → insertSorted k v m = m ++ [(k, v)] := by
  intro m
  induction m with
  | nil => intro _; rfl
  | cons q rest ih =>
    intro hm
    obtain ⟨k0, v0⟩ := q
    have hk0 : keyLt k0 k = true := hm (k0, v0) (List.mem_cons_self _ _)
    have h1 : keyLt k k0 = false := keyLt_asymm hk0
    have h2 : k ≠ k0 := (keyLt_ne hk0).symm
    simp only [insertSorted, h1, Bool.false_eq_true, if_false, if_neg h2]
    rw [ih (fun q hq => hm q (List.mem_cons_of_mem _ hq))]
    simp

theorem foldl_insStep_sorted :
    ∀ (ps m : List (List Nat × Bencode)), EntriesSorted (m ++ ps) →
      ps.foldl insStep m = m ++ ps := by
  intro ps
  induction ps with
  | nil => intro m _; simp
  | cons q ps ih =>
    intro m hm
    obtain ⟨k, v⟩ := q
    have hgt : ∀ q ∈ m, keyLt q.1 k = true := by
      intro q hq
      have := (List.pairwise_append.mp hm).2.2 q hq (k, v) (List.mem_cons_self _ _)
      exact this
    have hstep : insStep m (k, v) = m ++ [(k, v)] := insertSorted_of_gt hgt
    rw [List.foldl_cons, hstep, ih]
    · simp
    · have : (m ++ [(k, v)]) ++ ps = m ++ ((k, v) :: ps) := by simp
      rw [this]
      exact hm

theorem sorted_of_grammaticalPairs :
    ∀ {d}, GrammaticalPairs d = true → EntriesSorted d := by
  intro d
  induction d with
  | nil => intro _; exact List.Pairwise.nil
  | cons q rest ih =>
    intro h
    obtain ⟨k, v⟩ := q
    simp only [GrammaticalPairs, Bool.and_eq_true] at h
    refine List.pairwise_cons.mpr ⟨?_, ih h.2⟩
    intro q hq
    exact List.all_eq_true.mp h.1.1.2 q hq

theorem natToDigitsAux_ne_nil :
    ∀ (n : Nat) {acc : List Nat}, acc ≠ [] → natToDigitsAux n acc ≠ [] := by
  intro n
  induction n using Nat.strong_induction_on with
  | _ n ih =>
    intro acc hacc
    by_cases h : n = 0
    · rw [natToDigitsAux, dif_pos h]
      exact hacc
    · rw [natToDigitsAux, dif_neg h]
      exact ih _ (Nat.div_lt_self (Nat.pos_of_ne_zero h) (by decide)) (by simp)

theorem natToDigits_ne_nil (n : Nat) : natToDigits n ≠ [] := by
  by_cases h : n = 0
  · simp [natToDigits, h]
  · rw [natToDigits, if_neg h, natToDigitsAux, dif_neg h]
    exact natToDigitsAux_ne_nil _ (by simp)

theorem natToDigitsAux_mem :
    ∀ (n : Nat) {acc : List Nat}, (∀ x ∈ acc, 48 ≤ x ∧ x ≤ 57) →
      ∀ x ∈ natToDigitsAux n acc, 48 ≤ x ∧ x ≤ 57 := by
  intro n
  induction n using Nat.strong_induction_on with
  | _ n ih =>
    intro acc hacc x hx
    by_cases h : n = 0
    · rw [natToDigitsAux, dif_pos h] at hx
      exact hacc x hx
    · rw [natToDigitsAux, dif_neg h] at hx
      refine ih _ (Nat.div_lt_self (Nat.pos_of_ne_zero h) (by decide)) ?_ x hx
      intro y hy
      rcases List.mem_cons.mp hy with rfl | hy
      · have : n % 10 < 10 := Nat.mod_lt _ (by decide)
        omega
      · exact hacc y hy

theorem natToDigits_mem (n : Nat) : ∀ x ∈ natToDigits n, 48 ≤ x ∧ x ≤ 57 := by
  by_cases h : n = 0
  · simp [natToDigits, h]
  · rw [natToDigits, if_neg h]
    exact natToDigitsAux_mem n (by simp)

theorem digitsAux_natToDigitsAux :
    ∀ (n : Nat), n ≠ 0 → ∀ (acc : List Nat) (a : Nat),
      ∃ k, digitsAux (natToDigitsAux n acc) a = digitsAux acc (a * 10 ^ k + n) := by
  intro n
  induction n using Nat.strong_induction_on with
  | _ n ih =>
    intro hn acc a
    rw [natToDigitsAux, dif_neg hn]
    have hd : 48 ≤ 48 + n % 10 ∧ 48 + n % 10 ≤ 57 := by
      have : n % 10 < 10 := Nat.mod_lt _ (by decide)
      omega
    by_cases h10 : n / 10 = 0
    · rw [h10, natToDigitsAux, dif_pos rfl]
      refine ⟨1, ?_⟩
      simp only [digitsAux, show ((48 ≤ 48 + n % 10 && 48 + n % 10 ≤ 57) = true) by
        simp [hd.1, hd.2], if_true]
      refine congrArg (digitsAux acc) ?_
      rw [pow_one]
      have hsmall : n < 10 := by omega
      omega
    · obtain ⟨k, hk⟩ :=
        ih (n / 10) (Nat.div_lt_self (Nat.pos_of_ne_zero hn) (by decide)) h10
          ((48 + n % 10) :: acc) a
      refine ⟨k + 1, ?_⟩
      rw [hk]
      simp only [digitsAux, show ((48 ≤ 48 + n % 10 && 48 + n % 10 ≤ 57) = true) by
        simp [hd.1, hd.2], if_true]
      refine congrArg (digitsAux acc) ?_
      have h1 : 48 + n % 10 - 48 = n % 10 := by omega
      have h2 : n / 10 * 10 + n % 10 = n := by omega
      calc (a * 10 ^ k + n / 10) * 10 + (48 + n % 10 - 48)
          = a * (10 ^ k * 10) + (n / 10 * 10 + n % 10) := by rw [h1]; ring
        _ = a * 10 ^ (k + 1) + n := by rw [h2, pow_succ]

theorem parseNat_cons (c : Nat) (t : List Nat) : parseNat (c :: t) = digitsAux (c :: t) 0 :=
  rfl

theorem parseNat_natToDigits (n : Nat) : parseNat (natToDigits n) = some n := by
  by_cases h : n = 0
  · subst h
    rfl
  · obtain ⟨c, t, hct⟩ := List.exists_cons_of_ne_nil (natToDigits_ne_nil n)
    obtain ⟨k, hk⟩ := digitsAux_natToDigitsAux n h [] 0
    rw [natToDigits, if_neg h] at hct ⊢
    rw [hct, parseNat_cons, ← hct, hk]
    simp [digitsAux]

theorem natToDigits_head (n : Nat) :
    ∃ c t, natToDigits n = c :: t ∧ 48 ≤ c ∧ c ≤ 57 := by
  obtain ⟨c, t, hct⟩ := List.exists_cons_of_ne_nil (natToDigits_ne_nil n)
  have hc := natToDigits_mem n c (by rw [hct]; exact List.mem_cons_self _ _)
  exact ⟨c, t, hct, hc.1, hc.2⟩

theorem parseUsize_natToDigits {n : Nat} (hn : n ≤ 2 ^ 64 - 1) :
    parseUsize (natToDigits n) = some n := by
  obtain ⟨c, t, hct, hc48, _⟩ := natToDigits_head n
  have hc43 : c ≠ 43 := by omega
  rw [hct, parseUsize, if_neg hc43, ← hct, parseNat_natToDigits]
  show (if n ≤ 2 ^ 64 - 1 then some n else none) = some n
  exact if_pos hn

theorem parseI64_intToDigits {i : Int}
    (hlo : -(2 ^ 63 : Int) ≤ i) (hhi : i ≤ 2 ^ 63 - 1) :
    parseI64 (intToDigits i) = some i := by
  by_cases hneg : i < 0
  · rw [intToDigits, if_pos hneg]
    have habs : (i.natAbs : Int) = -i := Int.ofNat_natAbs_of_nonpos (le_of_lt hneg)
    have hb : i.natAbs ≤ 2 ^ 63 := by omega
    rw [parseI64, if_neg (by decide : (45 : Nat) ≠ 43), if_pos rfl,
      parseNat_natToDigits]
    show (if i.natAbs ≤ 2 ^ 63 then some (-(Int.ofNat i.natAbs : Int)) else none) = some i
    rw [if_pos hb]
    rw [show (Int.ofNat i.natAbs : Int) = (i.natAbs : Int) from rfl, habs, neg_neg]
  · rw [intToDigits, if_neg hneg]
    obtain ⟨c, t, hct, hc48, _⟩ := natToDigits_head i.natAbs
    have hc43 : c ≠ 43 := by omega
    have hc45 : c ≠ 45 := by omega
    have habs : (i.natAbs : Int) = i := Int.natAbs_of_nonneg (not_lt.mp hneg)
    have hb : i.natAbs ≤ 2 ^ 63 - 1 := by omega
    rw [hct, parseI64, if_neg hc43, if_neg hc45, ← hct, parseNat_natToDigits]
    show (if i.natAbs ≤ 2 ^ 63 - 1 then some (Int.ofNat i.natAbs : Int) else none) = some i
    rw [if_pos hb]
    rw [show (Int.ofNat i.natAbs : Int) = (i.natAbs : Int) from rfl, habs]

theorem position_append {t : Nat} :
    ∀ {ds : List Nat} (tail : List Nat), (∀ x ∈ ds, x ≠ t) →
      position t (ds ++ t :: tail) = some ds.length := by
  intro ds
  induction ds with
  | nil => intro tail _; simp [position]
  | cons c cs ih =>
    intro tail h
    have hc : c ≠ t := h c (List.mem_cons_self _ _)
    have hrec := ih tail (fun x hx => h x (List.mem_cons_of_mem _ hx))
    simp [position, hc, hrec]

theorem drop_len_succ_append :
    ∀ (ds : List Nat) (c : Nat) (x : List Nat), (ds ++ c :: x).drop (ds.length + 1) = x := by
  intro ds c x
  induction ds with
  | nil => simp
  | cons d rest ih => simp [ih]

theorem isValidUtf8_ascii : ∀ {l : List Nat}, (∀ x ∈ l, x ≤ 127) → isValidUtf8 l = true := by
  intro l
  induction l with
  | nil => intro _; rfl
  | cons b rest ih =>
    intro h
    have hb : b ≤ 127 := h b (List.mem_cons_self _ _)
    rw [isValidUtf8]
    simp only [if_pos hb]
    exact ih (fun x hx => h x (List.mem_cons_of_mem _ hx))

theorem intToDigits_mem {i : Int} : ∀ x ∈ intToDigits i, x = 45 ∨ (48 ≤ x ∧ x ≤ 57) := by
  intro x hx
  rw [intToDigits] at hx
  split at hx
  · rcases List.mem_cons.mp hx with rfl | hx
    · exact Or.inl rfl
    · exact Or.inr (natToDigits_mem _ x hx)
  · exact Or.inr (natToDigits_mem _ x hx)

theorem decode_integer_encoded {i : Int}
    (hlo : -(2 ^ 63 : Int) ≤ i) (hhi : i ≤ 2 ^ 63 - 1) (tail : List Nat) :
    decode_integer ((105 : Nat) :: (intToDigits i ++ (101 :: tail))) =
      .ok (.Integer i) tail := by
  have hds : ∀ x ∈ (105 : Nat) :: intToDigits i, x ≠ 101 := by
    intro x hx
    rcases List.mem_cons.mp hx with rfl | hx
    · decide
    · rcases intToDigits_mem x hx with rfl | ⟨h1, h2⟩ <;> omega
  have hpos : position 101 ((105 : Nat) :: (intToDigits i ++ 101 :: tail)) =
      some ((intToDigits i).length + 1) := by
    have := position_append tail hds
    simpa using this
  have htake : ((105 : Nat) :: (intToDigits i ++ 101 :: tail)).take
      ((intToDigits i).length + 1) = 105 :: intToDigits i := by
    rw [List.take_succ_cons, List.take_left]
  have hutf : isValidUtf8 (intToDigits i) = true := by
    refine isValidUtf8_ascii ?_
    intro x hx
    rcases intToDigits_mem x hx with rfl | ⟨h1, h2⟩ <;> omega
  have hdrop : ((105 : Nat) :: (intToDigits i ++ 101 :: tail)).drop
      ((intToDigits i).length + 1 + 1) = tail := by
    have := drop_len_succ_append ((105 : Nat) :: intToDigits i) 101 tail
    simp only [List.cons_append, List.length_cons, List.drop_succ_cons] at this ⊢
    simp [this]
  have hnot : ¬((intToDigits i).length + 1 < 1) := by omega
  rw [decode_integer, hpos]
  simp only [if_neg hnot, htake, List.drop_succ_cons, List.drop_zero, hutf,
    Bool.not_true, Bool.false_eq_true, if_false, parseI64_intToDigits hlo hhi, hdrop]

theorem decode_string_encoded {k : List Nat} (hk : k.length ≤ 2 ^ 64 - 1)
    (rest : List Nat) :
    decode_string (natToDigits k.length ++ (58 :: (k ++ rest))) = .ok (.String k) rest := by
  have hds : ∀ x ∈ natToDigits k.length, x ≠ 58 := by
    intro x hx
    have := natToDigits_mem _ x hx
    omega
  have hpos : position 58 (natToDigits k.length ++ 58 :: (k ++ rest)) =
      some (natToDigits k.length).length := position_append _ hds
  have htake : (natToDigits k.length ++ 58 :: (k ++ rest)).take
      (natToDigits k.length).length = natToDigits k.length := List.take_left _ _
  have hutf : isValidUtf8 (natToDigits k.length) = true := by
    refine isValidUtf8_ascii ?_
    intro x hx
    have := natToDigits_mem _ x hx
    omega
  have hdropstart : (natToDigits k.length ++ 58 :: (k ++ rest)).drop
      ((natToDigits k.length).length + 1) = k ++ rest := drop_len_succ_append _ _ _
  have htakek : ((natToDigits k.length ++ 58 :: (k ++ rest)).drop
      ((natToDigits k.length).length + 1)).take k.length = k := by
    rw [hdropstart, List.take_left]
  have hdropstop : (natToDigits k.length ++ 58 :: (k ++ rest)).drop
      ((natToDigits k.length).length + 1 + k.length) = rest := by
    rw [← List.drop_drop, hdropstart, List.drop_left]
  have hlen : ¬((natToDigits k.length ++ 58 :: (k ++ rest)).length <
      (natToDigits k.length).length + 1 + k.length) := by
    simp only [List.length_append, List.length_cons]
    omega
  rw [decode_string, hpos]
  simp only [htake, hutf, Bool.not_true, Bool.false_eq_true, if_false,
    parseUsize_natToDigits hk, if_neg hlen, htakek, hdropstop]

theorem encode_head (v : Bencode) :
    ∃ c t, encode v = c :: t ∧ c ≠ 101 ∧
      (c = 105 ∨ (48 ≤ c ∧ c ≤ 57) ∨ c = 108 ∨ c = 100) := by
  cases v with
  | Integer n => exact ⟨105, _, rfl, by decide, Or.inl rfl⟩
  | String s =>
    obtain ⟨c, t, hct, h48, h57⟩ := natToDigits_head s.length
    refine ⟨c, t ++ (58 :: s), ?_, by omega, Or.inr (Or.inl ⟨h48, h57⟩)⟩
    rw [encode, hct, List.cons_append]
  | List l => exact ⟨108, _, rfl, by decide, Or.inr (Or.inr (Or.inl rfl))⟩
  | Dictionary d => exact ⟨100, _, rfl, by decide, Or.inr (Or.inr (Or.inr rfl))⟩

theorem encode_length_pos (v : Bencode) : 1 ≤ (encode v).length := by
  obtain ⟨c, t, hct, _, _⟩ := encode_head v
  rw [hct]
  simp

mutual

theorem decode_encode :
    ∀ (v : Bencode), Grammatical v = true → ∀ (tail : List Nat) (f : Nat),
      2 * (encode v).length + 1 ≤ f → decodeF f (encode v ++ tail) = .ok v tail
  | .Integer n, hG, tail, f, hf => by
    obtain ⟨g, rfl⟩ : ∃ g, f = g + 1 := ⟨f - 1, by omega⟩
    simp only [Grammatical, Bool.and_eq_true, decide_eq_true_eq] at hG
    have hshape : encode (.Integer n) ++ tail =
        105 :: (intToDigits n ++ (101 :: tail)) := by
      simp [encode]
    rw [hshape, decodeF, if_pos rfl]
    exact decode_integer_encoded hG.1 hG.2 tail
  | .String s, hG, tail, f, hf => by
    obtain ⟨g, rfl⟩ : ∃ g, f = g + 1 := ⟨f - 1, by omega⟩
    simp only [Grammatical, Bool.and_eq_true, decide_eq_true_eq] at hG
    obtain ⟨c, t, hct, h48, h57⟩ := natToDigits_head s.length
    have hshape : encode (.String s) ++ tail = c :: (t ++ (58 :: (s ++ tail))) := by
      rw [encode, hct]
      simp [List.append_assoc]
    rw [hshape, decodeF]
    rw [if_neg (by omega : ¬c = 105), if_pos (⟨h48, h57⟩ : 48 ≤ c ∧ c ≤ 57)]
    have hback : c :: (t ++ (58 :: (s ++ tail))) =
        natToDigits s.length ++ (58 :: (s ++ tail)) := by
      rw [hct, List.cons_append]
    rw [hback]
    exact decode_string_encoded hG.1 tail
  | .List l, hG, tail, f, hf => by
    obtain ⟨g, rfl⟩ : ∃ g, f = g + 1 := ⟨f - 1, by omega⟩
    rw [Grammatical] at hG
    have hshape : encode (.List l) ++ tail = 108 :: (encodeItems l ++ (101 :: tail)) := by
      simp [encode]
    have hlen : (encode (.List l)).length = (encodeItems l).length + 2 := by
      simp [encode]
    rw [hshape, decodeF]
    rw [if_neg (by decide : ¬(108 : Nat) = 105),
      if_neg (by decide : ¬(48 ≤ (108 : Nat) ∧ (108 : Nat) ≤ 57)), if_pos rfl]
    have hrec := decode_encodeItems l hG [] tail g (by omega)
    simpa using hrec
  | .Dictionary d, hG, tail, f, hf => by
    obtain ⟨g, rfl⟩ : ∃ g, f = g + 1 := ⟨f - 1, by omega⟩
    rw [Grammatical] at hG
    have hsorted : EntriesSorted d := sorted_of_grammaticalPairs hG
    have hshape : encode (.Dictionary d) ++ tail =
        100 :: (encodePairs d ++ (101 :: tail)) := by
      simp [encode]
    have hlen : (encode (.Dictionary d)).length = (encodePairs d).length + 2 := by
      simp [encode]
    rw [hshape, decodeF]
    rw [if_neg (by decide : ¬(100 : Nat) = 105),
      if_neg (by decide : ¬(48 ≤ (100 : Nat) ∧ (100 : Nat) ≤ 57)),
      if_neg (by decide : ¬(100 : Nat) = 108), if_pos rfl]
    have hrec := decode_encodePairs d hG [] tail g (by omega)
    rw [hrec]
    have hfold : d.foldl insStep [] = d := by
      have := foldl_insStep_sorted d [] (by simpa using hsorted)
      simpa using this
    rw [hfold]

theorem decode_encodeItems :
    ∀ (l : List Bencode), GrammaticalItems l = true →
      ∀ (acc : List Bencode) (tail : List Nat) (f : Nat),
        2 * (encodeItems l).length + 2 ≤ f →
        decodeListItems f (encodeItems l ++ (101 :: tail)) acc =
          .ok (.List (acc ++ l)) tail
  | [], _, acc, tail, f, hf => by
    obtain ⟨g, rfl⟩ : ∃ g, f = g + 1 := ⟨f - 1, by omega⟩
    rw [show encodeItems [] ++ (101 :: tail) = 101 :: tail from rfl]
    rw [decodeListItems, if_pos rfl]
    simp
  | v :: vs, hG, acc, tail, f, hf => by
    obtain ⟨g, rfl⟩ : ∃ g, f = g + 1 := ⟨f - 1, by omega⟩
    simp only [GrammaticalItems, Bool.and_eq_true] at hG
    obtain ⟨c, t, hct, hc101, _⟩ := encode_head v
    have hlenv : (encode v).length = t.length + 1 := by rw [hct]; rfl
    have hlen : (encodeItems (v :: vs)).length =
        (encode v).length + (encodeItems vs).length := by
      simp [encodeItems]
    have hshape : encodeItems (v :: vs) ++ (101 :: tail) =
        c :: (t ++ (encodeItems vs ++ (101 :: tail))) := by
      rw [encodeItems, hct]
      simp [List.append_assoc]
    rw [hshape, decodeListItems, if_neg hc101]
    have hv : decodeF g (c :: (t ++ (encodeItems vs ++ (101 :: tail)))) =
        .ok v (encodeItems vs ++ (101 :: tail)) := by
      have hback : c :: (t ++ (encodeItems vs ++ (101 :: tail))) =
          encode v ++ (encodeItems vs ++ (101 :: tail)) := by
        rw [hct, List.cons_append]
      rw [hback]
      exact decode_encode v hG.1 _ g (by omega)
    rw [hv]
    show decodeListItems g (encodeItems vs ++ (101 :: tail)) (acc ++ [v]) = _
    rw [decode_encodeItems vs hG.2 (acc ++ [v]) tail g (by omega)]
    simp

theorem decode_encodePairs :
    ∀ (ps : List (List Nat × Bencode)), GrammaticalPairs ps = true →
      ∀ (acc : List (List Nat × Bencode)) (tail : List Nat) (f : Nat),
        2 * (encodePairs ps).length + 2 ≤ f →
        decodeDictPairs f (encodePairs ps ++ (101 :: tail)) acc =
          .ok (.Dictionary (ps.foldl insStep acc)) tail
  | [], _, acc, tail, f, hf => by
    obtain ⟨g, rfl⟩ : ∃ g, f = g + 1 := ⟨f - 1, by omega⟩
    rw [show encodePairs [] ++ (101 :: tail) = 101 :: tail from rfl]
    rw [decodeDictPairs, if_pos rfl]
    rfl
  | (k, v) :: ps, hG, acc, tail, f, hf => by
    obtain ⟨g, rfl⟩ : ∃ g, f = g + 1 := ⟨f - 1, by omega⟩
    simp only [GrammaticalPairs, Bool.and_eq_true, decide_eq_true_eq] at hG
    obtain ⟨⟨⟨⟨hkl, _⟩, _⟩, hGv⟩, hGps⟩ := hG
    obtain ⟨c, t, hct, h48, h57⟩ := natToDigits_head k.length
    have hlnd : 1 ≤ (natToDigits k.length).length := by
      rw [hct]
      simp
    have hlv := encode_length_pos v
    have hlenc : (encodePairs ((k, v) :: ps)).length =
        (natToDigits k.length).length + 1 + k.length +
          ((encode v).length + (encodePairs ps).length) := by
      simp [encodePairs]
      omega
    have hshape : encodePairs ((k, v) :: ps) ++ (101 :: tail) =
        c :: (t ++ (58 :: (k ++ (encode v ++ (encodePairs ps ++ (101 :: tail)))))) := by
      rw [encodePairs, hct]
      simp [List.append_assoc]
    rw [hshape, decodeDictPairs, if_neg (by omega : ¬c = 101)]
    have hkey : decode_string
        (c :: (t ++ (58 :: (k ++ (encode v ++ (encodePairs ps ++ (101 :: tail))))))) =
        .ok (.String k) (encode v ++ (encodePairs ps ++ (101 :: tail))) := by
      have hback : c :: (t ++ (58 :: (k ++ (encode v ++ (encodePairs ps ++ (101 :: tail)))))) =
          natToDigits k.length ++
            (58 :: (k ++ (encode v ++ (encodePairs ps ++ (101 :: tail))))) := by
        rw [hct, List.cons_append]
      rw [hback]
      exact decode_string_encoded hkl _
    have hval : decodeF g (encode v ++ (encodePairs ps ++ (101 :: tail))) =
        .ok v (encodePairs ps ++ (101 :: tail)) :=
      decode_encode v hGv _ g (by omega)
    simp only [hkey, hval]
    show decodeDictPairs g (encodePairs ps ++ (101 :: tail)) (insertSorted k v acc) = _
    rw [decode_encodePairs ps hGps (insertSorted k v acc) tail g (by omega)]
    rfl

end

theorem decode_integer_suffix {input : List Nat} {v : Bencode} {rest : List Nat}
    (h : decode_integer input = .ok v rest) : rest <:+ input := by
  simp only [decode_integer] at h
  split at h
  · exact absurd h (by simp)
  · split at h
    · exact absurd h (by simp)
    · split at h
      · exact absurd h (by simp)
      · split at h
        · exact absurd h (by simp)
        · simp only [DecodeResult.ok.injEq] at h
          rw [← h.2]
          exact List.drop_suffix _ _

theorem decode_string_suffix {input : List Nat} {v : Bencode} {rest : List Nat}
    (h : decode_string input = .ok v rest) : rest <:+ input := by
  simp only [decode_string] at h
  split at h
  · exact absurd h (by simp)
  · split at h
    · exact absurd h (by simp)
    · split at h
      · exact absurd h (by simp)
      · split at h
        · exact absurd h (by simp)
        · simp only [DecodeResult.ok.injEq] at h
          rw [← h.2]
          exact List.drop_suffix _ _

theorem decodeF_suffix :
    ∀ (f : Nat),
      (∀ {input v rest}, decodeF f input = .ok v rest → rest <:+ input) ∧
      (∀ {items acc v rest}, decodeListItems f items acc = .ok v rest → rest <:+ items) ∧
      (∀ {rem acc v rest}, decodeDictPairs f rem acc = .ok v rest → rest <:+ rem)
  | 0 => by
    refine ⟨?_, ?_, ?_⟩
    · intro input v rest h
      exact absurd h (by simp [decodeF])
    · intro items acc v rest h
      exact absurd h (by simp [decodeListItems])
    · intro rem acc v rest h
      exact absurd h (by simp [decodeDictPairs])
  | f + 1 => by
    obtain ⟨ihF, ihL, ihD⟩ := decodeF_suffix f
    refine ⟨?_, ?_, ?_⟩
    · intro input v rest h
      cases input with
      | nil => exact absurd h (by simp [decodeF])
      | cons c t =>
        rw [decodeF] at h
        split at h
        · exact decode_integer_suffix h
        · split at h
          · exact decode_string_suffix h
          · split at h
            · exact (ihL h).trans (List.suffix_cons c t)
            · split at h
              · exact (ihD h).trans (List.suffix_cons c t)
              · exact absurd h (by simp)
    · intro items acc v rest h
      cases items with
      | nil => exact absurd h (by simp [decodeListItems])
      | cons c rs =>
        rw [decodeListItems] at h
        split at h
        · simp only [DecodeResult.ok.injEq] at h
          rw [← h.2]
          exact List.suffix_cons c rs
        · cases hd : decodeF f (c :: rs) with
          | ok w rest2 =>
            simp only [hd] at h
            exact ((ihL h).trans (ihF hd))
          | err e => simp [hd] at h
          | panicked => simp [hd] at h
          | fuelOut => simp [hd] at h
    · intro rem acc v rest h
      cases rem with
      | nil => exact absurd h (by simp [decodeDictPairs])
      | cons c rs =>
        rw [decodeDictPairs] at h
        split at h
        · simp only [DecodeResult.ok.injEq] at h
          rw [← h.2]
          exact List.suffix_cons c rs
        · cases hk : decode_string (c :: rs) with
          | ok key rest1 =>
            simp only [hk] at h
            cases hd : decodeF f rest1 with
            | ok w rest2 =>
              simp only [hd] at h
              exact ((ihD h).trans (ihF hd)).trans (decode_string_suffix hk)
            | err e => simp [hd] at h
            | panicked => simp [hd] at h
            | fuelOut => simp [hd] at h
          | err e => simp [hk] at h
          | panicked => simp [hk] at h
          | fuelOut => simp [hk] at h

theorem decode_integer_ok_shape {input : List Nat} {v : Bencode} {rest : List Nat}
    (h : decode_integer input = .ok v rest) : ∃ n, v = .Integer n := by
  simp only [decode_integer] at h
  split at h
  · exact absurd h (by simp)
  · split at h
    · exact absurd h (by simp)
    · split at h
      · exact absurd h (by simp)
      · split at h
        · exact absurd h (by simp)
        · simp only [DecodeResult.ok.injEq] at h
          exact ⟨_, h.1.symm⟩

theorem decode_string_ok_shape {input : List Nat} {v : Bencode} {rest : List Nat}
    (h : decode_string input = .ok v rest) : ∃ s, v = .String s := by
  simp only [decode_string] at h
  split at h
  · exact absurd h (by simp)
  · split at h
    · exact absurd h (by simp)
    · split at h
      · exact absurd h (by simp)
      · split at h
        · exact absurd h (by simp)
        · simp only [DecodeResult.ok.injEq] at h
          exact ⟨_, h.1.symm⟩

theorem decodeListItems_ok_shape :
    ∀ (f : Nat) (items : List Nat) (acc : List Bencode) (v : Bencode) (rest : List Nat),
      decodeListItems f items acc = .ok v rest → ∃ l, v = .List l
  | 0, items, acc, v, rest => by
    intro h
    exact absurd h (by simp [decodeListItems])
  | f + 1, items, acc, v, rest => by
    intro h
    cases items with
    | nil => exact absurd h (by simp [decodeListItems])
    | cons c rs =>
      rw [decodeListItems] at h
      split at h
      · simp only [DecodeResult.ok.injEq] at h
        exact ⟨acc, h.1.symm⟩
      · cases hd : decodeF f (c :: rs) with
        | ok w rest2 =>
          simp only [hd] at h
          exact decodeListItems_ok_shape f rest2 (acc ++ [w]) v rest h
        | err e => simp [hd] at h
        | panicked => simp [hd] at h
        | fuelOut => simp [hd] at h

theorem decodeDictPairs_parses :
    ∀ (f : Nat) (rem : List Nat) (acc : List (List Nat × Bencode)) (v : Bencode)
      (rest : List Nat),
      decodeDictPairs f rem acc = .ok v rest →
      ∃ ps, v = .Dictionary (ps.foldl insStep acc) ∧ ParsesPairs rem ps rest
  | 0, rem, acc, v, rest => by
    intro h
    exact absurd h (by simp [decodeDictPairs])
  | f + 1, rem, acc, v, rest => by
    intro h
    cases rem with
    | nil => exact absurd h (by simp [decodeDictPairs])
    | cons c rs =>
      rw [decodeDictPairs] at h
      split at h
      · rename_i hc
        subst hc
        simp only [DecodeResult.ok.injEq] at h
        obtain ⟨hv, hr⟩ := h
        subst hr
        exact ⟨[], hv.symm, ParsesPairs.nil rs⟩
      · rename_i hc
        cases hk : decode_string (c :: rs) with
        | ok key rest1 =>
          simp only [hk] at h
          cases hd : decodeF f rest1 with
          | ok w rest2 =>
            simp only [hd] at h
            obtain ⟨skey, rfl⟩ := decode_string_ok_shape hk
            obtain ⟨ps, hv, hps⟩ :=
              decodeDictPairs_parses f rest2 (insertSorted skey w acc) v rest h
            refine ⟨(skey, w) :: ps, ?_, ?_⟩
            · rw [hv]
              rfl
            · exact ParsesPairs.cons (by simp [hc]) hk ⟨f, hd⟩ hps
          | err e => simp [hd] at h
          | panicked => simp [hd] at h
          | fuelOut => simp [hd] at h
        | err e => simp [hk] at h
        | panicked => simp [hk] at h
        | fuelOut => simp [hk] at h

theorem get_string_isSome (d : List (List Nat × Bencode)) (k : List Nat) :
    (get_string d k).isSome = hasTextField d k := by
  rw [get_string, hasTextField]
  cases hm : mapGet d k with
  | none => rfl
  | some v =>
    cases v with
    | Integer n => rfl
    | String s => cases hu : isValidUtf8 s <;> simp [Bencode.as_string, hu]
    | List l => rfl
    | Dictionary dd => rfl

theorem get_integer_isSome (d : List (List Nat × Bencode)) (k : List Nat) :
    (get_integer d k).isSome = hasIntField d k := by
  rw [get_integer, hasIntField]
  cases hm : mapGet d k with
  | none => rfl
  | some v => cases v <;> rfl

theorem get_dictionary_isSome (d : List (List Nat × Bencode)) (k : List Nat) :
    (get_dictionary d k).isSome = hasDictField d k := by
  rw [get_dictionary, hasDictField]
  cases hm : mapGet d k with
  | none => rfl
  | some v => cases v <;> rfl

theorem get_list_isSome (d : List (List Nat × Bencode)) (k : List Nat) :
    (get_list d k).isSome = hasListField d k := by
  rw [get_list, hasListField]
  cases hm : mapGet d k with
  | none => rfl
  | some v => cases v <;> rfl

theorem get_bytes_isSome (d : List (List Nat × Bencode)) (k : List Nat) :
    (get_bytes d k).isSome = hasBytesField d k := by
  rw [get_bytes, hasBytesField]
  cases hm : mapGet d k with
  | none => rfl
  | some v => cases v <;> rfl

theorem creation_bind_isSome (d : List (List Nat × Bencode)) :
    ((get_integer d (strBytes "creation date")).bind dateTimeFromTimestamp).isSome =
      hasTimestampField d := by
  rw [get_integer, hasTimestampField]
  cases hm : mapGet d (strBytes "creation date") with
  | none => rfl
  | some v =>
    cases v with
    | Integer n =>
      show (dateTimeFromTimestamp n).isSome = tsInRange n
      rw [dateTimeFromTimestamp]
      cases ht : tsInRange n <;> simp [ht]
    | String s => rfl
    | List l => rfl
    | Dictionary dd => rfl

theorem get_info_fields {i : List (List Nat × Bencode)} {nm pc : List Nat} {pl : Int}
    {fs : List Bencode} {tfs : List TorrentFile}
    (hnm : mapGet i (strBytes "name") = some (.String nm)) (hnm8 : isValidUtf8 nm = true)
    (hpl : mapGet i (strBytes "piece length") = some (.Integer pl))
    (hfs : mapGet i (strBytes "files") = some (.List fs))
    (hfsok : getFiles fs = .ok tfs)
    (hpc : mapGet i (strBytes "pieces") = some (.String pc)) :
    get_info i = .ok ⟨nm, pl, tfs, pc.flatMap toHex2⟩ := by
  have h1 : get_string i (strBytes "name") = some nm := by
    rw [get_string, hnm]
    simp [Bencode.as_string, hnm8]
  have h2 : get_integer i (strBytes "piece length") = some pl := by
    rw [get_integer, hpl]
    rfl
  have h3 : get_list i (strBytes "files") = some fs := by
    rw [get_list, hfs]
    rfl
  have h5 : get_bytes i (strBytes "pieces") = some pc := by
    rw [get_bytes, hpc]
    rfl
  simp only [get_info, h1, h2, h3, hfsok, h5]

theorem option_eq_none_of_isSome_false {α : Type} {o : Option α}
    (h : o.isSome = false) : o = none := by
  cases o
  · rfl
  · simp at h

/-- C3 (amended): for every root Dictionary with `announce`, `created by`
(UTF-8 strings), `creation date` (integer accepted by the datetime
conversion), and an `info` Dictionary with `name` (UTF-8 string),
`piece length` (integer), `files` (a list the file mapper accepts) and
`pieces` (byte string), the mapper succeeds; `announce`, `created by`,
`name`, `piece length` and `files` hold the literal decoded values, the
stored `creation_date` is the UTC datetime of the epoch integer, and
`pieces` holds the uppercase-hex rendering (two hex digits per byte) of the
raw piece bytes rather than the raw bytes themselves. -/
theorem c3_mapper_literal_fields {root i : List (List Nat × Bencode)}
    {a cb nm pc : List Nat} {cd pl : Int} {fs : List Bencode} {tfs : List TorrentFile}
    (ha : mapGet root (strBytes "announce") = some (.String a))
    (ha8 : isValidUtf8 a = true)
    (hcb : mapGet root (strBytes "created by") = some (.String cb))
    (hcb8 : isValidUtf8 cb = true)
    (hcd : mapGet root (strBytes "creation date") = some (.Integer cd))
    (hcdR : tsInRange cd = true)
    (hi : mapGet root (strBytes "info") = some (.Dictionary i))
    (hnm : mapGet i (strBytes "name") = some (.String nm))
    (hnm8 : isValidUtf8 nm = true)
    (hpl : mapGet i (strBytes "piece length") = some (.Integer pl))
    (hfs : mapGet i (strBytes "files") = some (.List fs))
    (hfsok : getFiles fs = .ok tfs)
    (hpc : mapGet i (strBytes "pieces") = some (.String pc)) :
    fromBencode (.Dictionary root) =
      .ok ⟨a, cb, ⟨cd⟩, ⟨nm, pl, tfs, pc.flatMap toHex2⟩⟩ := by
  have h1 : get_string root (strBytes "announce") = some a := by
    rw [get_string, ha]
    simp [Bencode.as_string, ha8]
  have h2 : get_string root (strBytes "created by") = some cb := by
    rw [get_string, hcb]
    simp [Bencode.as_string, hcb8]
  have h3 : (get_integer root (strBytes "creation date")).bind dateTimeFromTimestamp =
      some ⟨cd⟩ := by
    rw [get_integer, hcd]
    show dateTimeFromTimestamp cd = some ⟨cd⟩
    rw [dateTimeFromTimestamp, if_pos hcdR]
  have h4 : get_dictionary root (strBytes "info") = some i := by
    rw [get_dictionary, hi]
    rfl
  have h5 := get_info_fields hnm hnm8 hpl hfs hfsok hpc
  simp only [fromBencode, Bencode.as_dict, h1, h2, h3, h4, h5]

/-- C3 counterexample: on a root dictionary whose `info.pieces` holds the
raw bytes of `"bytes"`, the mapper succeeds but stores the hex text
`"6279746573"`, not the raw bytes — refuting the claim that `pieces` holds
the literal decoded byte string. -/
theorem c3_pieces_not_raw_bytes :
    fromBencode (.Dictionary
      [(strBytes "announce", .String [97]),
       (strBytes "created by", .String [98]),
       (strBytes "creation date", .Integer 0),
       (strBytes "info", .Dictionary
         [(strBytes "files", .List []),
          (strBytes "name", .String [110]),
          (strBytes "piece length", .Integer 1),
          (strBytes "pieces", .String (strBytes "bytes"))])]) =
      .ok ⟨[97], [98], ⟨0⟩, ⟨[110], 1, [], strBytes "6279746573"⟩⟩ ∧
    strBytes "6279746573" ≠ strBytes "bytes" := by
  constructor
  · rfl
  · decide

/-- C3 witness: the amended theorem applied to a concrete dictionary shaped
like the mapper test of the repository. -/
theorem c3_mapper_literal_fields_witness :
    fromBencode (.Dictionary
      [(strBytes "announce", .String [97]),
       (strBytes "created by", .String [98]),
       (strBytes "creation date", .Integer 1735403744163),
       (strBytes "info", .Dictionary
         [(strBytes "files", .List
            [.Dictionary [(strBytes "length", .Integer 3),
                          (strBytes "path", .List [.String [97, 98]])]]),
          (strBytes "name", .String [110]),
          (strBytes "piece length", .Integer 1),
          (strBytes "pieces", .String [0, 255])])]) =
      .ok ⟨[97], [98], ⟨1735403744163⟩,
        ⟨[110], 1, [⟨3, [[97, 98]]⟩], [0, 255].flatMap toHex2⟩⟩ :=
  c3_mapper_literal_fields (by rfl) (by rfl) (by rfl) (by rfl) (by rfl) (by decide)
    (by rfl) (by rfl) (by rfl) (by rfl) (by rfl) (by rfl) (by rfl)

/-- C4 (amended): the mapper reports `InvalidTorrentFile` when the root is
not a Dictionary; otherwise it reports as `MissingField(<name>)` the first
field in the order `announce`, `created by`, `creation date`, `info`, then
within info `name`, `piece length`, `files`, `pieces`, whose extraction
fails — where extraction fails when the field is absent, of the wrong Value
variant, invalid UTF-8 where text is required, or (for `creation date`)
outside the range the datetime conversion accepts. -/
theorem c4_first_failing_field (v : Bencode) :
    (v.as_dict = none → fromBencode v = .error .InvalidTorrentFile) ∧
    (∀ root, v = .Dictionary root →
      ((hasTextField root (strBytes "announce") = false →
          fromBencode v = .error (.MissingField "announce")) ∧
       (hasTextField root (strBytes "announce") = true →
        hasTextField root (strBytes "created by") = false →
          fromBencode v = .error (.MissingField "created by")) ∧
       (hasTextField root (strBytes "announce") = true →
        hasTextField root (strBytes "created by") = true →
        hasTimestampField root = false →
          fromBencode v = .error (.MissingField "creation date")) ∧
       (hasTextField root (strBytes "announce") = true →
        hasTextField root (strBytes "created by") = true →
        hasTimestampField root = true →
        hasDictField root (strBytes "info") = false →
          fromBencode v = .error (.MissingField "info")) ∧
       (∀ i, mapGet root (strBytes "info") = some (.Dictionary i) →
        hasTextField root (strBytes "announce") = true →
        hasTextField root (strBytes "created by") = true →
        hasTimestampField root = true →
          ((hasTextField i (strBytes "name") = false →
              fromBencode v = .error (.MissingField "name")) ∧
           (hasTextField i (strBytes "name") = true →
            hasIntField i (strBytes "piece length") = false →
              fromBencode v = .error (.MissingField "piece length")) ∧
           (hasTextField i (strBytes "name") = true →
            hasIntField i (strBytes "piece length") = true →
            hasListField i (strBytes "files") = false →
              fromBencode v = .error (.MissingField "files")) ∧
           (hasTextField i (strBytes "name") = true →
            hasIntField i (strBytes "piece length") = true →
            hasMappableFiles i = true →
            hasBytesField i (strBytes "pieces") = false →
              fromBencode v = .error (.MissingField "pieces")))))) := by
  constructor
  · intro hnd
    simp only [fromBencode, hnd]
  · intro root hv
    subst hv
    have hdict : Bencode.as_dict (.Dictionary root) = some root := rfl
    refine ⟨?_, ?_, ?_, ?_, ?_⟩
    · intro hA
      have h1 : get_string root (strBytes "announce") = none :=
        option_eq_none_of_isSome_false (by rw [get_string_isSome]; exact hA)
      simp only [fromBencode, hdict, h1]
    · intro hA hCB
      obtain ⟨a, h1⟩ := Option.isSome_iff_exists.mp (by rw [get_string_isSome]; exact hA)
      have h2 : get_string root (strBytes "created by") = none :=
        option_eq_none_of_isSome_false (by rw [get_string_isSome]; exact hCB)
      simp only [fromBencode, hdict, h1, h2]
    · intro hA hCB hTS
      obtain ⟨a, h1⟩ := Option.isSome_iff_exists.mp (by rw [get_string_isSome]; exact hA)
      obtain ⟨cb, h2⟩ := Option.isSome_iff_exists.mp (by rw [get_string_isSome]; exact hCB)
      have h3 : (get_integer root (strBytes "creation date")).bind dateTimeFromTimestamp =
          none :=
        option_eq_none_of_isSome_false (by rw [creation_bind_isSome]; exact hTS)
      simp only [fromBencode, hdict, h1, h2, h3]
    · intro hA hCB hTS hI
      obtain ⟨a, h1⟩ := Option.isSome_iff_exists.mp (by rw [get_string_isSome]; exact hA)
      obtain ⟨cb, h2⟩ := Option.isSome_iff_exists.mp (by rw [get_string_isSome]; exact hCB)
      obtain ⟨dt, h3⟩ :=
        Option.isSome_iff_exists.mp (by rw [creation_bind_isSome]; exact hTS)
      have h4 : get_dictionary root (strBytes "info") = none :=
        option_eq_none_of_isSome_false (by rw [get_dictionary_isSome]; exact hI)
      simp only [fromBencode, hdict, h1, h2, h3, h4]
    · intro i hi hA hCB hTS
      obtain ⟨a, h1⟩ := Option.isSome_iff_exists.mp (by rw [get_string_isSome]; exact hA)
      obtain ⟨cb, h2⟩ := Option.isSome_iff_exists.mp (by rw [get_string_isSome]; exact hCB)
      obtain ⟨dt, h3⟩ :=
        Option.isSome_iff_exists.mp (by rw [creation_bind_isSome]; exact hTS)
      have h4 : get_dictionary root (strBytes "info") = some i := by
        rw [get_dictionary, hi]
        rfl
      refine ⟨?_, ?_, ?_, ?_⟩
      · intro hN
        have h5 : get_string i (strBytes "name") = none :=
          option_eq_none_of_isSome_false (by rw [get_string_isSome]; exact hN)
        simp only [fromBencode, hdict, h1, h2, h3, h4, get_info, h5]
      · intro hN hPL
        obtain ⟨nm, h5⟩ := Option.isSome_iff_exists.mp (by rw [get_string_isSome]; exact hN)
        have h6 : get_integer i (strBytes "piece length") = none :=
          option_eq_none_of_isSome_false (by rw [get_integer_isSome]; exact hPL)
        simp only [fromBencode, hdict, h1, h2, h3, h4, get_info, h5, h6]
      · intro hN hPL hF
        obtain ⟨nm, h5⟩ := Option.isSome_iff_exists.mp (by rw [get_string_isSome]; exact hN)
        obtain ⟨pl, h6⟩ := Option.isSome_iff_exists.mp (by rw [get_integer_isSome]; exact hPL)
        have h7 : get_list i (strBytes "files") = none :=
          option_eq_none_of_isSome_false (by rw [get_list_isSome]; exact hF)
        simp only [fromBencode, hdict, h1, h2, h3, h4, get_info, h5, h6, h7]
      · intro hN hPL hMF hPC
        obtain ⟨nm, h5⟩ := Option.isSome_iff_exists.mp (by rw [get_string_isSome]; exact hN)
        obtain ⟨pl, h6⟩ := Option.isSome_iff_exists.mp (by rw [get_integer_isSome]; exact hPL)
        cases hm : mapGet i (strBytes "files") with
        | none => rw [hasMappableFiles, hm] at hMF; exact absurd hMF (by simp)
        | some w =>
          cases w with
          | Integer n => rw [hasMappableFiles, hm] at hMF; exact absurd hMF (by simp)
          | String s => rw [hasMappableFiles, hm] at hMF; exact absurd hMF (by simp)
          | Dictionary dd => rw [hasMappableFiles, hm] at hMF; exact absurd hMF (by simp)
          | List fs =>
            rw [hasMappableFiles, hm] at hMF
            cases hgf : getFiles fs with
            | error e => simp [hgf] at hMF
            | ok tfs =>
              have h7 : get_list i (strBytes "files") = some fs := by
                rw [get_list, hm]
                rfl
              have h8 : get_bytes i (strBytes "pieces") = none :=
                option_eq_none_of_isSome_false (by rw [get_bytes_isSome]; exact hPC)
              simp only [fromBencode, hdict, h1, h2, h3, h4, get_info, h5, h6, h7,
                hgf, h8]

/-- C4 counterexample: a root whose `announce` is present with the String
variant (bytes `[255]`, not valid UTF-8) while `created by` is absent.  The
first field that is absent or of the wrong variant is `created by`, but the
mapper reports `MissingField "announce"` — refuting the claim that only
absence or a wrong variant triggers the report. -/
theorem c4_invalid_utf8_announce :
    fromBencode (.Dictionary [(strBytes "announce", .String [255])]) =
      .error (.MissingField "announce") ∧
    mapGet [(strBytes "announce", .String [255])] (strBytes "announce") =
      some (.String [255]) :=
  ⟨rfl, rfl⟩

/-- C4 witness: the amended theorem applied to a non-dictionary root and to
a dictionary whose first failing field is `created by`. -/
theorem c4_first_failing_field_witness :
    fromBencode (.Integer 7) = .error .InvalidTorrentFile ∧
    fromBencode (.Dictionary [(strBytes "announce", .String [97])]) =
      .error (.MissingField "created by") :=
  ⟨(c4_first_failing_field (.Integer 7)).1 rfl,
   ((c4_first_failing_field
       (.Dictionary [(strBytes "announce", .String [97])])).2 _ rfl).2.1 rfl rfl⟩

/-- C10: with `announce` and `created by` extractable, the mapper reports
`MissingField "creation date"` when the key is absent, not an Integer, or an
Integer outside the range the datetime conversion accepts; and on success
the stored `creation_date` is the UTC datetime of the epoch integer. -/
theorem c10_creation_date_range (root : List (List Nat × Bencode))
    (hA : hasTextField root (strBytes "announce") = true)
    (hCB : hasTextField root (strBytes "created by") = true) :
    ((mapGet root (strBytes "creation date") = none ∨
      (∃ w, mapGet root (strBytes "creation date") = some w ∧ w.as_integer = none) ∨
      (∃ n, mapGet root (strBytes "creation date") = some (.Integer n) ∧
        tsInRange n = false)) →
      fromBencode (.Dictionary root) = .error (.MissingField "creation date")) ∧
    (∀ t, fromBencode (.Dictionary root) = .ok t →
      ∃ n, mapGet root (strBytes "creation date") = some (.Integer n) ∧
        tsInRange n = true ∧ t.creation_date = ⟨n⟩) := by
  obtain ⟨a, h1⟩ := Option.isSome_iff_exists.mp (by rw [get_string_isSome]; exact hA)
  obtain ⟨cb, h2⟩ := Option.isSome_iff_exists.mp (by rw [get_string_isSome]; exact hCB)
  constructor
  · intro hbad
    have h3 : (get_integer root (strBytes "creation date")).bind dateTimeFromTimestamp =
        none := by
      rcases hbad with hb | ⟨w, hw, hwi⟩ | ⟨n, hn, hr⟩
      · rw [get_integer, hb]
        rfl
      · rw [get_integer, hw]
        show (Bencode.as_integer w).bind dateTimeFromTimestamp = none
        rw [hwi]
        rfl
      · rw [get_integer, hn]
        show dateTimeFromTimestamp n = none
        rw [dateTimeFromTimestamp, hr]
        rfl
    simp only [fromBencode, Bencode.as_dict, h1, h2, h3]
  · intro t ht
    simp only [fromBencode, Bencode.as_dict, h1, h2] at ht
    cases hbind : (get_integer root (strBytes "creation date")).bind dateTimeFromTimestamp with
    | none => simp [hbind] at ht
    | some dt =>
      simp only [hbind] at ht
      cases hgd : get_dictionary root (strBytes "info") with
      | none => simp [hgd] at ht
      | some i =>
        simp only [hgd] at ht
        cases hgi : get_info i with
        | error e => simp [hgi] at ht
        | ok info =>
          simp only [hgi, Except.ok.injEq] at ht
          obtain ⟨n, hgn, hdt⟩ := Option.bind_eq_some.mp hbind
          obtain ⟨w, hw, hwi⟩ := Option.bind_eq_some.mp hgn
          have hwint : w = .Integer n := by
            cases w with
            | Integer m =>
              simp only [Bencode.as_integer, Option.some.injEq] at hwi
              rw [hwi]
            | String s => exact absurd hwi (by simp [Bencode.as_integer])
            | List l => exact absurd hwi (by simp [Bencode.as_integer])
            | Dictionary dd => exact absurd hwi (by simp [Bencode.as_integer])
          rw [dateTimeFromTimestamp] at hdt
          split at hdt
          · rename_i hrange
            simp only [Option.some.injEq] at hdt
            refine ⟨n, by rw [hw, hwint], hrange, ?_⟩
            rw [← ht, ← hdt]
          · exact absurd hdt (by simp)

/-- C10 witness: a root whose creation date `9000000000000` lies beyond the
datetime range is reported as `MissingField "creation date"`. -/
theorem c10_creation_date_range_witness :
    fromBencode (.Dictionary
      [(strBytes "announce", .String [97]),
       (strBytes "created by", .String [98]),
       (strBytes "creation date", .Integer 9000000000000)]) =
      .error (.MissingField "creation date") :=
  (c10_creation_date_range
    [(strBytes "announce", .String [97]),
     (strBytes "created by", .String [98]),
     (strBytes "creation date", .Integer 9000000000000)] rfl rfl).1
    (Or.inr (Or.inr ⟨9000000000000, rfl, by decide⟩))

/-- C1: on the input `5:ab`, whose length prefix 5 exceeds the 2 bytes
remaining after the `:`, the decoder slices past the buffer and panics — it
does not return the explicit bounds error the specification requires. -/
theorem c1_length_overrun_panics :
    decode (strBytes "5:ab") = .panicked :=
  rfl

/-- C2: on the inputs `l`, `d` and `li42e`, where the buffer is exhausted
before a terminating `e`, the decoder slices `&rest[1..]` on an empty
remainder and panics — it does not return the malformed-input error the
specification requires. -/
theorem c2_unterminated_collection_panics :
    decode (strBytes "l") = .panicked ∧
    decode (strBytes "d") = .panicked ∧
    decode (strBytes "li42e") = .panicked :=
  ⟨rfl, rfl, rfl⟩

/-- C5: decoding the canonical encoding of any grammar-constructible value
yields exactly that value with an empty remainder. -/
theorem c5_decode_encode_roundtrip (v : Bencode) (h : Grammatical v = true) :
    decode (encode v) = .ok v [] := by
  have hrt := decode_encode v h [] (2 * (encode v).length + 1) (le_refl _)
  rw [decode]
  simpa using hrt

/-- C5 witness: the round trip at a concrete nested dictionary. -/
theorem c5_roundtrip_witness :
    decode (encode (.Dictionary
      [([97], .Integer 42),
       ([98], .List [.String [1, 2], .Integer (-7)]),
       ([98, 0], .Dictionary [([], .String [])])])) =
      .ok (.Dictionary
        [([97], .Integer 42),
         ([98], .List [.String [1, 2], .Integer (-7)]),
         ([98, 0], .Dictionary [([], .String [])])]) [] :=
  c5_decode_encode_roundtrip _ (by decide)

/-- C6: the truncated integer `i123` fails with the no-end-marker error,
the non-numeric body `i12a3e` fails with the invalid-number error, and the
two error kinds are distinct. -/
theorem c6_integer_error_kinds :
    decode (strBytes "i123") = .err .noEndMarker ∧
    decode (strBytes "i12a3e") = .err .invalidNumber ∧
    BencodeError.noEndMarker ≠ BencodeError.invalidNumber :=
  ⟨rfl, rfl, by decide⟩

/-- C7: whenever decoding yields a Dictionary, the consumed dictionary body
parses into a pair sequence such that the dictionary binds every key to the
value of the last occurrence of that key in the sequence, and the keys of
the decoded dictionary are unique. -/
theorem c7_last_write_wins {input : List Nat} {d : List (List Nat × Bencode)}
    {rest : List Nat} (h : decode input = .ok (.Dictionary d) rest) :
    ∃ ps, ParsesPairs (input.drop 1) ps rest ∧
      (∀ k, mapGet d k = lastBound ps k) ∧
      (d.map Prod.fst).Nodup := by
  rw [decode] at h
  cases input with
  | nil => simp [decodeF] at h
  | cons c t =>
    rw [decodeF] at h
    split at h
    · obtain ⟨n, hn⟩ := decode_integer_ok_shape h
      exact absurd hn (by simp)
    · split at h
      · obtain ⟨s, hs⟩ := decode_string_ok_shape h
        exact absurd hs (by simp)
      · split at h
        · obtain ⟨l, hl⟩ := decodeListItems_ok_shape _ _ _ _ _ h
          exact absurd hl (by simp)
        · split at h
          · obtain ⟨ps, hv, hps⟩ := decodeDictPairs_parses _ t [] _ rest h
            have hd : d = ps.foldl insStep [] := by
              injection hv
            refine ⟨ps, by simpa using hps, ?_, ?_⟩
            · intro k
              rw [hd, mapGet_foldl_insert]
              cases lastBound ps k with
              | none => simp [Option.or, mapGet]
              | some w => simp [Option.or]
            · rw [hd]
              exact nodup_keys_of_sorted (pairwise_foldl_insert ps [] List.Pairwise.nil)
          · exact absurd h (by simp)

/-- C7 witness: the input `d1:ai1e1:ai2ee` encodes the key `a` twice; the
decoded dictionary binds `a` to the second value. -/
theorem c7_last_write_wins_witness :
    ∃ ps, ParsesPairs ((strBytes "d1:ai1e1:ai2ee").drop 1) ps [] ∧
      (∀ k, mapGet [([97], Bencode.Integer 2)] k = lastBound ps k) ∧
      ([([97], Bencode.Integer 2)].map Prod.fst).Nodup :=
  c7_last_write_wins (by rfl)

/-- C8: decoding the empty buffer returns the invalid-input error, the same
kind an unrecognized leading byte produces. -/
theorem c8_empty_input_error :
    decode [] = .err .invalidInput ∧
    decode (strBytes "hello world") = .err .invalidInput :=
  ⟨rfl, rfl⟩

/-- C9: whenever decoding succeeds, the returned remainder is a contiguous
suffix of the input — some prefix followed by the remainder equals the
input, so successive decodes consume the buffer left to right. -/
theorem c9_remainder_suffix {input : List Nat} {v : Bencode} {rest : List Nat}
    (h : decode input = .ok v rest) : rest <:+ input := by
  rw [decode] at h
  exact (decodeF_suffix _).1 h

/-- C9 witness: decoding `i42ei1e` stops after the first value and returns
the suffix `i1e`. -/
theorem c9_remainder_suffix_witness :
    strBytes "i1e" <:+ strBytes "i42ei1e" :=
  c9_remainder_suffix (by rfl)
